import Mathlib

/-! Verification of micro-conf.h, a header-only C99 configuration-file
parser (San7o/micro-conf.h).

Shallow embedding conventions:
* C strings are `List Char` without embedded NUL bytes.
* The opened file is the list of lines that `getline` would return, each
  line keeping its trailing newline when one is present.  `fopen` failure
  is modelled by passing `none` for the file; a NULL `conf` argument by
  passing `none` for the binding array.  `fclose` is assumed to succeed
  (no claim concerns MICRO_CONF_ERROR_CLOSING_FILE).
* Binding destinations (the `void *value` pointers) are modelled as slots
  of a `List CVal` indexed in parallel with the binding array; distinct
  bindings are assumed not to alias each other.
* The libc conversions `strtol` (base 10), `strtod` and `strtof` are
  modelled on their ISO C documented behaviour for decimal subject
  sequences (hexadecimal, infinity and NaN forms are not modelled, and
  floating-point rounding is not modelled: values are kept as exact
  rationals).  An empty or malformed subject sequence performs no
  conversion: value 0, no characters consumed.
-/

/-- Whitespace characters skipped by `left_space` (micro-conf.h:202-204):
space, newline and tab. -/
def IsWs (c : Char) : Prop := c = ' ' ∨ c = '\n' ∨ c = '\t'

instance (c : Char) : Decidable (IsWs c) := by
  unfold IsWs
  exact inferInstance

/-- Characters stripped from the end of the value string by the while
loop at micro-conf.h:256-257: newline and space (note: not tab). -/
def IsTrail (c : Char) : Prop := c = '\n' ∨ c = ' '

instance (c : Char) : Decidable (IsTrail c) := by
  unfold IsTrail
  exact inferInstance

/-- Embedding of `left_space` (micro-conf.h:195-216): number of leading
whitespace characters of `input`, scanning at most `input_size`
characters.  The `line` and `column` out-parameters of the C function are
omitted: every call site passes NULL for both. -/
def left_space : List Char → Nat → Nat
  | [], _ => 0
  | _ :: _, 0 => 0
  | c :: rest, n + 1 => if IsWs c then left_space rest n + 1 else 0

/-- Result of `strchr(line, '#'); if (comment) *comment = '\0';`
(micro-conf.h:232-233): the line truncated at its first `#`. -/
def cutComment : List Char → List Char
  | [] => []
  | c :: rest => if c = '#' then [] else c :: cutComment rest

/-- Helper for clean formulations: drop the leading `IsWs` run.  Equal to
dropping `left_space l n` characters whenever `n` bounds the length. -/
def skipWs : List Char → List Char
  | [] => []
  | c :: rest => if IsWs c then skipWs rest else c :: rest

/-- Drop the leading `IsTrail` run (used reversed, on the value tail). -/
def dropTrail : List Char → List Char
  | [] => []
  | c :: rest => if IsTrail c then dropTrail rest else c :: rest

/-- Embedding of the trailing-trim loop at micro-conf.h:255-257: remove
the trailing run of newline and space characters from the value. -/
def trimTrailing (l : List Char) : List Char := (dropTrail l.reverse).reverse

/-- Number of characters consumed by
`if (*after_name == '=' || *after_name == ':') after_name++;`
(micro-conf.h:250). -/
def sepCount (l : List Char) : Nat :=
  match l with
  | c :: _ => if c = '=' ∨ c = ':' then 1 else 0
  | [] => 0

/-- Whitespace in the sense of C `isspace` in the default locale, used by
`strtol`/`strtod` before the subject sequence. -/
def IsCSpace (c : Char) : Prop :=
  c = ' ' ∨ c = '\t' ∨ c = '\n' ∨ c = '\x0b' ∨ c = '\x0c' ∨ c = '\r'

instance (c : Char) : Decidable (IsCSpace c) := by
  unfold IsCSpace
  exact inferInstance

/-- Length of the leading C-whitespace run. -/
def cspaceCount : List Char → Nat
  | [] => 0
  | c :: rest => if IsCSpace c then cspaceCount rest + 1 else 0

/-- The longest decimal-digit run at the head of the list. -/
def takeDigits : List Char → List Char
  | [] => []
  | c :: rest => if c.isDigit then c :: takeDigits rest else []

/-- Value of a list of decimal digits, most significant first. -/
def digitsToNat (ds : List Char) : Nat :=
  ds.foldl (fun a c => a * 10 + (c.toNat - 48)) 0

/-- Clamp to the range of `long` (LP64), as `strtol` does on overflow. -/
def clampLong (z : Int) : Int := max (-(2 ^ 63)) (min (2 ^ 63 - 1) z)

/-- The C narrowing conversion `(int)val` from `long` (micro-conf.h:308),
modelled as two's-complement wrap-around to 32 bits. -/
def toInt32 (z : Int) : Int := (z + 2 ^ 31) % 2 ^ 32 - 2 ^ 31

/-- Model of `strtol(s, &endptr, 10)` (ISO C): skip C whitespace, an
optional sign, then a run of decimal digits.  Returns the converted value
and the number of characters consumed (`endptr - s`); if there is no
digit, no conversion is performed: value 0, zero characters consumed. -/
def strtol10 (s : List Char) : Int × Nat :=
  let w := cspaceCount s
  let s1 := s.drop w
  let sg : Int := if s1.head? = some '-' then -1 else 1
  let sgN : Nat := if s1.head? = some '-' ∨ s1.head? = some '+' then 1 else 0
  let d := takeDigits (s1.drop sgN)
  if d = [] then (0, 0)
  else (clampLong (sg * (digitsToNat d : Int)), w + sgN + d.length)

/-- Model of `strtod(s, &endptr)` (ISO C) restricted to decimal subject
sequences: skip C whitespace, an optional sign, a nonempty digit string
optionally containing one decimal point, then an optional exponent part
(`e`/`E`, optional sign, nonempty digit string; an exponent letter not
followed by a digit is not consumed).  Hexadecimal, infinity and NaN
forms are not modelled; the value is the exact rational
sign * mantissa-digits * 10 ^ exponent / 10 ^ fraction-length (no
rounding).  Returns the value and the number of characters consumed; no
conversion gives value 0 and zero characters consumed. -/
def strtodM (s : List Char) : ℚ × Nat :=
  let w := cspaceCount s
  let s1 := s.drop w
  let sg : Int := if s1.head? = some '-' then -1 else 1
  let sgN : Nat := if s1.head? = some '-' ∨ s1.head? = some '+' then 1 else 0
  let s2 := s1.drop sgN
  let d1 := takeDigits s2
  let s3 := s2.drop d1.length
  let dotN : Nat := if s3.head? = some '.' then 1 else 0
  let d2 := takeDigits (s3.drop dotN)
  if d1 = [] ∧ d2 = [] then (0, 0)
  else
    let D : Int := sg * (digitsToNat (d1 ++ d2) : Int)
    let mc := w + sgN + d1.length + dotN + d2.length
    let s4 := s3.drop (dotN + d2.length)
    if s4.head? = some 'e' ∨ s4.head? = some 'E' then
      let r := s4.drop 1
      let esg : Int := if r.head? = some '-' then -1 else 1
      let esgN : Nat := if r.head? = some '-' ∨ r.head? = some '+' then 1 else 0
      let ed := takeDigits (r.drop esgN)
      if ed = [] then (mkRat D (10 ^ d2.length), mc)
      else
        let ev : Int := esg * (digitsToNat ed : Int)
        (mkRat (D * 10 ^ ev.toNat) (10 ^ (d2.length + (-ev).toNat)),
          mc + 1 + esgN + ed.length)
    else (mkRat D (10 ^ d2.length), mc)

instance {ε α : Type} [DecidableEq ε] [DecidableEq α] :
    DecidableEq (Except ε α) := fun x y =>
  match x, y with
  | .ok a, .ok b =>
    if h : a = b then isTrue (by rw [h]) else isFalse (by simp [h])
  | .error a, .error b =>
    if h : a = b then isTrue (by rw [h]) else isFalse (by simp [h])
  | .ok _, .error _ => isFalse (by simp)
  | .error _, .ok _ => isFalse (by simp)

/-- The `MicroConfType` enumeration (micro-conf.h:150-157). -/
inductive MicroConfType where
  | MICRO_CONF_BOOL
  | MICRO_CONF_INT
  | MICRO_CONF_FLOAT
  | MICRO_CONF_DOUBLE
  | MICRO_CONF_CHAR
  | MICRO_CONF_STR
deriving DecidableEq, Repr

/-- One entry of the caller-supplied binding array (micro-conf.h:159-163).
The `void *value` destination is represented positionally: binding number
`i` writes slot `i` of the state list. -/
structure MicroConf where
  type : MicroConfType
  name : List Char
deriving DecidableEq, Repr

/-- The value stored in a destination slot.  `vfloat`/`vdouble` carry the
exact rational produced by the conversion model; `vstr` carries the
`strdup`-ed characters. -/
inductive CVal where
  | vbool : Bool → CVal
  | vint : Int → CVal
  | vfloat : ℚ → CVal
  | vdouble : ℚ → CVal
  | vchar : Char → CVal
  | vstr : List Char → CVal
deriving DecidableEq, Repr

def MICRO_CONF_OK : Int := 0
def MICRO_CONF_ERROR_CONF_NULL : Int := -1
def MICRO_CONF_ERROR_OPENING_FILE : Int := -2
def MICRO_CONF_ERROR_CLOSING_FILE : Int := -3
def MICRO_CONF_ERROR_UNKNOWN_TYPE : Int := -4
def MICRO_CONF_ERROR_INVALID_BOOL : Int := -5
def MICRO_CONF_ERROR_INVALID_INT : Int := -6
def MICRO_CONF_ERROR_INVALID_DOUBLE : Int := -7
def MICRO_CONF_ERROR_INVALID_FLOAT : Int := -8
def MICRO_CONF_ERROR_INVALID_CHAR : Int := -9

/-- The per-type conversion switch (micro-conf.h:259-341) applied to the
extracted value string.  The C `default` arm returning
MICRO_CONF_ERROR_UNKNOWN_TYPE is unreachable here because
`MicroConfType` is a closed enumeration. -/
def convert (t : MicroConfType) (value_str : List Char) : Except Int CVal :=
  match t with
  | .MICRO_CONF_BOOL =>
    if value_str = "true".toList ∨ value_str = "1".toList then .ok (.vbool true)
    else if value_str = "false".toList ∨ value_str = "0".toList then .ok (.vbool false)
    else .error MICRO_CONF_ERROR_INVALID_BOOL
  | .MICRO_CONF_CHAR =>
    match value_str with
    | [c] => .ok (.vchar c)
    | _ => .error MICRO_CONF_ERROR_INVALID_CHAR
  | .MICRO_CONF_STR => .ok (.vstr value_str)
  | .MICRO_CONF_INT =>
    let p := strtol10 value_str
    if p.2 = value_str.length then .ok (.vint (toInt32 p.1))
    else .error MICRO_CONF_ERROR_INVALID_INT
  | .MICRO_CONF_DOUBLE =>
    let p := strtodM value_str
    if p.2 = value_str.length then .ok (.vdouble p.1)
    else .error MICRO_CONF_ERROR_INVALID_DOUBLE
  | .MICRO_CONF_FLOAT =>
    let p := strtodM value_str
    if p.2 = value_str.length then .ok (.vfloat p.1)
    else .error MICRO_CONF_ERROR_INVALID_FLOAT

/-- The binding loop of micro_conf_parse (micro-conf.h:240-344) on one
trimmed line.  `read` is the getline byte count of the whole line and
`space` the leading-whitespace count, exactly as used by the C bounds
`read - space - name_len` and `read - (after_name - line)`; `i` is the
index of the first binding of `bs` in the original array.  On the first
binding whose name is a prefix of the trimmed text (strncmp with the
name's length), the value substring is extracted and converted; the C
`break` after a successful write corresponds to returning right away. -/
def resolve : List MicroConf → Nat → List CVal → List Char → Nat → Nat →
    Except Int (List CVal)
  | [], _, st, _, _, _ => .ok st
  | b :: rest, i, st, trimmed, read, space =>
    if b.name.isPrefixOf trimmed then
      let nl := b.name.length
      let a0 := trimmed.drop nl
      let sp1 := left_space a0 (read - space - nl)
      let a1 := a0.drop sp1
      let sn := sepCount a1
      let a2 := a1.drop sn
      let sp2 := left_space a2 (read - (space + nl + sp1 + sn))
      let value_str := trimTrailing (a2.drop sp2)
      match convert b.type value_str with
      | .error e => .error e
      | .ok v => .ok (st.set i v)
    else resolve rest (i + 1) st trimmed read space

/-- One iteration of the getline loop of micro_conf_parse
(micro-conf.h:230-345): truncate the line at `#`, trim leading
whitespace, skip the line if nothing remains, otherwise run the binding
loop. -/
def process_line (conf : List MicroConf) (st : List CVal) (l : List Char) :
    Except Int (List CVal) :=
  match (cutComment l).drop (left_space (cutComment l) l.length) with
  | [] => .ok st
  | c :: rest =>
    if c = '\n' then .ok st
    else resolve conf 0 st (c :: rest) l.length (left_space (cutComment l) l.length)

/-- The getline loop of micro_conf_parse: process the lines in order; the
first failing line aborts the whole call with its error, keeping the
state written by the earlier lines. -/
def parse_lines (conf : List MicroConf) : List (List Char) → List CVal →
    Int × List CVal
  | [], st => (MICRO_CONF_OK, st)
  | l :: ls, st =>
    match process_line conf st l with
    | .error e => (e, st)
    | .ok st2 => parse_lines conf ls st2

/-- Embedding of `micro_conf_parse` (micro-conf.h:218-350).  A NULL
`conf` argument is `none`; a path that cannot be opened is a `none` file.
The returned pair is the C return code together with the final
destination slots. -/
def micro_conf_parse (conf : Option (List MicroConf))
    (file : Option (List (List Char))) (st : List CVal) : Int × List CVal :=
  match conf with
  | none => (MICRO_CONF_ERROR_CONF_NULL, st)
  | some bs =>
    match file with
    | none => (MICRO_CONF_ERROR_OPENING_FILE, st)
    | some ls => parse_lines bs ls st

/-- Value-substring extraction from the text following the matched key,
written with `skipWs` instead of bounded `left_space` calls: skip
whitespace, consume one optional `=`/`:`, skip whitespace, trim the
trailing newline/space run.  `resolve` computes exactly this (see
`resolve_eq_clean` below). -/
def extract_value (rest : List Char) : List Char :=
  trimTrailing (skipWs ((skipWs rest).drop (sepCount (skipWs rest))))

/-- The binding loop with the whitespace bounds already discharged. -/
def resolve_clean : List MicroConf → Nat → List CVal → List Char →
    Except Int (List CVal)
  | [], _, st, _ => .ok st
  | b :: rest, i, st, trimmed =>
    if b.name.isPrefixOf trimmed then
      match convert b.type (extract_value (trimmed.drop b.name.length)) with
      | .error e => .error e
      | .ok v => .ok (st.set i v)
    else resolve_clean rest (i + 1) st trimmed

/-- `process_line` with the whitespace bounds already discharged. -/
def process_line_clean (conf : List MicroConf) (st : List CVal)
    (l : List Char) : Except Int (List CVal) :=
  match skipWs (cutComment l) with
  | [] => .ok st
  | c :: rest =>
    if c = '\n' then .ok st
    else resolve_clean conf 0 st (c :: rest)

example : process_line [⟨.MICRO_CONF_INT, "key".toList⟩] [.vint 7]
    "key = 5\n".toList = .ok [.vint 5] := by decide

example : process_line [⟨.MICRO_CONF_INT, "key".toList⟩] [.vint 7]
    ("key = 5" ++ "\t\n").toList = .error (-6) := by decide

example : process_line [⟨.MICRO_CONF_STR, "x".toList⟩] [.vint 7]
    "xy = 1\n".toList = .ok [.vstr "y = 1".toList] := by decide

example : micro_conf_parse (some [⟨.MICRO_CONF_DOUBLE, "d".toList⟩])
    (some ["d: 2.5e1\n".toList]) [.vint 0] = (0, [.vdouble 25]) := by decide

example : process_line [⟨.MICRO_CONF_BOOL, "b".toList⟩] [.vint 7]
    "   b : true   # on\n".toList = .ok [.vbool true] := by decide

lemma isWs_ne_hash {c : Char} (h : IsWs c) : c ≠ '#' := by
  rcases h with h | h | h <;> subst h <;> decide

lemma isTrail_isWs {c : Char} (h : IsTrail c) : IsWs c := by
  rcases h with h | h <;> subst h <;> decide

lemma left_space_le : ∀ (l : List Char) (n : Nat), left_space l n ≤ l.length := by
  intro l
  induction l with
  | nil => intro n; simp [left_space]
  | cons c rest ih =>
    intro n
    cases n with
    | zero => simp [left_space]
    | succ m =>
      by_cases h : IsWs c
      · simp only [left_space, if_pos h, List.length_cons]
        exact Nat.succ_le_succ (ih m)
      · simp [left_space, if_neg h]

lemma left_space_drop : ∀ (l : List Char) (n : Nat), l.length ≤ n →
    l.drop (left_space l n) = skipWs l := by
  intro l
  induction l with
  | nil => intro n _; simp [left_space, skipWs]
  | cons c rest ih =>
    intro n h
    cases n with
    | zero => exact absurd h (by simp)
    | succ m =>
      by_cases hc : IsWs c
      · simp only [left_space, skipWs, if_pos hc]
        rw [List.drop_succ_cons]
        exact ih m (by simpa using h)
      · simp [left_space, skipWs, if_neg hc]

lemma skipWs_cons_not {c : Char} (l : List Char) (h : ¬ IsWs c) :
    skipWs (c :: l) = c :: l := by
  simp [skipWs, if_neg h]

lemma skipWs_append_ws : ∀ (w l : List Char), (∀ c ∈ w, IsWs c) →
    skipWs (w ++ l) = skipWs l := by
  intro w
  induction w with
  | nil => intro l _; rfl
  | cons c w' ih =>
    intro l h
    have hc : IsWs c := h c (by simp)
    simp only [List.cons_append, skipWs, if_pos hc]
    exact ih l (fun d hd => h d (by simp [hd]))

lemma skipWs_all (w : List Char) (h : ∀ c ∈ w, IsWs c) : skipWs w = [] := by
  have h2 := skipWs_append_ws w [] h
  simpa using h2

lemma skipWs_append : ∀ (x w : List Char),
    skipWs (x ++ w) = if skipWs x = [] then skipWs w else skipWs x ++ w := by
  intro x
  induction x with
  | nil => intro w; simp [skipWs]
  | cons c x' ih =>
    intro w
    by_cases hc : IsWs c
    · simp only [List.cons_append, skipWs, if_pos hc]
      exact ih w
    · simp [skipWs, if_neg hc]

lemma skipWs_head_not : ∀ (l : List Char) (c : Char) (r : List Char),
    skipWs l = c :: r → ¬ IsWs c := by
  intro l
  induction l with
  | nil => intro c r h; simp [skipWs] at h
  | cons a l' ih =>
    intro c r h
    by_cases ha : IsWs a
    · simp only [skipWs, if_pos ha] at h
      exact ih c r h
    · simp only [skipWs, if_neg ha] at h
      injection h with h1 h2
      exact h1 ▸ ha

lemma cutComment_not_mem : ∀ (l : List Char), '#' ∉ l → cutComment l = l := by
  intro l
  induction l with
  | nil => intro _; rfl
  | cons c r ih =>
    intro h
    have hc : ¬ c = '#' := fun hc => h (by simp [hc])
    simp only [cutComment, if_neg hc]
    rw [ih (fun hm => h (List.mem_cons_of_mem _ hm))]

lemma cutComment_append_hash : ∀ (s t : List Char),
    cutComment (s ++ '#' :: t) = cutComment s := by
  intro s t
  induction s with
  | nil => simp [cutComment]
  | cons c s' ih =>
    by_cases hc : c = '#'
    · subst hc; simp [cutComment]
    · simp only [List.cons_append, cutComment, if_neg hc]
      show c :: cutComment (s' ++ '#' :: t) = c :: cutComment s'
      rw [ih]

lemma cutComment_length_le : ∀ (l : List Char),
    (cutComment l).length ≤ l.length := by
  intro l
  induction l with
  | nil => simp [cutComment]
  | cons c r ih =>
    by_cases hc : c = '#'
    · simp [cutComment, hc]
    · simp only [cutComment, if_neg hc, List.length_cons]
      exact Nat.succ_le_succ ih

lemma hash_not_mem_cutComment : ∀ (l : List Char), '#' ∉ cutComment l := by
  intro l
  induction l with
  | nil => simp [cutComment]
  | cons c r ih =>
    by_cases hc : c = '#'
    · simp [cutComment, hc]
    · simp only [cutComment, if_neg hc]
      intro hm
      rcases List.mem_cons.mp hm with h | h
      · exact hc h.symm
      · exact ih h

lemma cutComment_idem (l : List Char) :
    cutComment (cutComment l) = cutComment l :=
  cutComment_not_mem _ (hash_not_mem_cutComment l)

lemma dropTrail_append : ∀ (w l : List Char), (∀ c ∈ w, IsTrail c) →
    dropTrail (w ++ l) = dropTrail l := by
  intro w
  induction w with
  | nil => intro l _; rfl
  | cons c w' ih =>
    intro l h
    simp only [List.cons_append, dropTrail, if_pos (h c (by simp))]
    exact ih l (fun d hd => h d (by simp [hd]))

lemma trimTrailing_append (v w : List Char) (h : ∀ c ∈ w, IsTrail c) :
    trimTrailing (v ++ w) = trimTrailing v := by
  unfold trimTrailing
  rw [List.reverse_append,
    dropTrail_append _ _ (fun c hc => h c (List.mem_reverse.mp hc))]

lemma trimTrailing_nil : trimTrailing [] = [] := rfl

lemma trimTrailing_skipWs_append (x w : List Char) (h : ∀ c ∈ w, IsTrail c) :
    trimTrailing (skipWs (x ++ w)) = trimTrailing (skipWs x) := by
  rw [skipWs_append]
  by_cases hx : skipWs x = []
  · rw [if_pos hx, hx, skipWs_all w (fun c hc => isTrail_isWs (h c hc))]
  · rw [if_neg hx]
    exact trimTrailing_append _ _ h

lemma extract_value_nil : extract_value [] = [] := rfl

lemma extract_value_front_ws (w x : List Char) (h : ∀ c ∈ w, IsWs c) :
    extract_value (w ++ x) = extract_value x := by
  unfold extract_value
  rw [skipWs_append_ws w x h]

lemma extract_value_cons_sep (c : Char) (x : List Char)
    (h : c = '=' ∨ c = ':') :
    extract_value (c :: x) = trimTrailing (skipWs x) := by
  have hc : ¬ IsWs c := by rcases h with h | h <;> subst h <;> decide
  unfold extract_value
  rw [skipWs_cons_not x hc]
  simp only [sepCount, if_pos h, List.drop_succ_cons, List.drop_zero]

lemma extract_value_cons_nonsep (c : Char) (x : List Char) (hws : ¬ IsWs c)
    (hsep : ¬(c = '=' ∨ c = ':')) :
    extract_value (c :: x) = trimTrailing (c :: x) := by
  unfold extract_value
  rw [skipWs_cons_not x hws]
  simp only [sepCount, if_neg hsep, List.drop_zero]
  rw [skipWs_cons_not x hws]

lemma extract_value_trailing (x w : List Char) (h : ∀ c ∈ w, IsTrail c) :
    extract_value (x ++ w) = extract_value x := by
  unfold extract_value
  rw [skipWs_append]
  by_cases hx : skipWs x = []
  · rw [if_pos hx, hx, skipWs_all w (fun c hc => isTrail_isWs (h c hc))]
  · rw [if_neg hx]
    obtain ⟨c, y, hcy⟩ : ∃ c y, skipWs x = c :: y := by
      cases hc : skipWs x with
      | nil => exact absurd hc hx
      | cons c y => exact ⟨c, y, rfl⟩
    rw [hcy]
    have hcws : ¬ IsWs c := skipWs_head_not x c y hcy
    by_cases hsep : c = '=' ∨ c = ':'
    · simp only [List.cons_append, sepCount, if_pos hsep,
        List.drop_succ_cons, List.drop_zero]
      exact trimTrailing_skipWs_append y w h
    · simp only [List.cons_append, sepCount, if_neg hsep, List.drop_zero]
      rw [← List.cons_append]
      exact trimTrailing_skipWs_append (c :: y) w h

lemma trail_append_nl (w4 : List Char) (hw4 : ∀ c ∈ w4, IsTrail c) :
    ∀ c ∈ w4 ++ ['\n'], IsTrail c := by
  intro c hc
  rcases List.mem_append.mp hc with h | h
  · exact hw4 c h
  · simp at h
    subst h
    exact Or.inl rfl

lemma extract_value_ws (w2 w3 w4 sepS v : List Char)
    (hw2 : ∀ c ∈ w2, IsWs c) (hw3 : ∀ c ∈ w3, IsWs c)
    (hw4 : ∀ c ∈ w4, IsTrail c)
    (hsep : sepS = ['='] ∨ sepS = [':'] ∨ sepS = []) :
    extract_value (w2 ++ (sepS ++ (w3 ++ (v ++ (w4 ++ ['\n']))))) =
    extract_value (sepS ++ (v ++ ['\n'])) := by
  rw [extract_value_front_ws w2 _ hw2]
  have hnl : ∀ c ∈ ('\n' :: ([] : List Char)), IsTrail c := by
    intro c hc
    simp at hc
    subst hc
    exact Or.inl rfl
  rcases hsep with h | h | h
  · subst h
    simp only [List.singleton_append]
    rw [extract_value_cons_sep '=' _ (Or.inl rfl),
      extract_value_cons_sep '=' _ (Or.inl rfl),
      skipWs_append_ws w3 _ hw3,
      trimTrailing_skipWs_append v (w4 ++ ['\n']) (trail_append_nl w4 hw4),
      trimTrailing_skipWs_append v ['\n'] hnl]
  · subst h
    simp only [List.singleton_append]
    rw [extract_value_cons_sep ':' _ (Or.inr rfl),
      extract_value_cons_sep ':' _ (Or.inr rfl),
      skipWs_append_ws w3 _ hw3,
      trimTrailing_skipWs_append v (w4 ++ ['\n']) (trail_append_nl w4 hw4),
      trimTrailing_skipWs_append v ['\n'] hnl]
  · subst h
    simp only [List.nil_append]
    rw [extract_value_front_ws w3 _ hw3,
      extract_value_trailing v (w4 ++ ['\n']) (trail_append_nl w4 hw4),
      extract_value_trailing v ['\n'] hnl]

lemma resolve_eq_clean : ∀ (bs : List MicroConf) (i : Nat) (st : List CVal)
    (trimmed : List Char) (read space : Nat),
    space + trimmed.length ≤ read →
    resolve bs i st trimmed read space = resolve_clean bs i st trimmed := by
  intro bs
  induction bs with
  | nil => intro i st trimmed read space _; rfl
  | cons b rest ih =>
    intro i st trimmed read space h
    by_cases hp : b.name.isPrefixOf trimmed = true
    · simp only [resolve, resolve_clean, if_pos hp]
      have h0 : (trimmed.drop b.name.length).length ≤
          read - space - b.name.length := by
        rw [List.length_drop]
        omega
      rw [left_space_drop _ _ h0]
      have h1 : (((skipWs (trimmed.drop b.name.length)).drop
          (sepCount (skipWs (trimmed.drop b.name.length)))).length ≤
          read - (space + b.name.length +
            left_space (trimmed.drop b.name.length)
              (read - space - b.name.length) +
            sepCount (skipWs (trimmed.drop b.name.length)))) := by
        have e1 : skipWs (trimmed.drop b.name.length) =
            (trimmed.drop b.name.length).drop
              (left_space (trimmed.drop b.name.length)
                (read - space - b.name.length)) :=
          (left_space_drop _ _ h0).symm
        rw [List.length_drop, e1, List.length_drop, List.length_drop]
        omega
      rw [left_space_drop _ _ h1]
      rfl
    · simp only [resolve, resolve_clean, if_neg hp]
      exact ih (i + 1) st trimmed read space h

lemma process_line_eq_clean (conf : List MicroConf) (st : List CVal)
    (l : List Char) :
    process_line conf st l = process_line_clean conf st l := by
  unfold process_line process_line_clean
  have hlen : (cutComment l).length ≤ l.length := cutComment_length_le l
  rw [left_space_drop _ _ hlen]
  cases hs : skipWs (cutComment l) with
  | nil => rfl
  | cons c rest =>
    by_cases hc : c = '\n'
    · simp [hc]
    · simp only [if_neg hc]
      apply resolve_eq_clean
      have h1 : left_space (cutComment l) l.length ≤ (cutComment l).length :=
        left_space_le _ _
      have h2 : (skipWs (cutComment l)).length =
          (cutComment l).length - left_space (cutComment l) l.length := by
        rw [← left_space_drop _ _ hlen, List.length_drop]
      rw [hs] at h2
      omega

lemma isPrefixOf_append_self (l r : List Char) :
    l.isPrefixOf (l ++ r) = true := by
  rw [ List.isPrefixOf_iff_prefix]
  exact List.prefix_append l r

lemma resolve_clean_skip : ∀ (pre : List MicroConf) (bs : List MicroConf)
    (i : Nat) (st : List CVal) (t : List Char),
    (∀ bj ∈ pre, bj.name.isPrefixOf t = false) →
    resolve_clean (pre ++ bs) i st t = resolve_clean bs (i + pre.length) st t := by
  intro pre
  induction pre with
  | nil => intro bs i st t _; simp [resolve_clean]
  | cons p pre' ih =>
    intro bs i st t h
    have hp : p.name.isPrefixOf t = false := h p (by simp)
    show resolve_clean (p :: (pre' ++ bs)) i st t = _
    simp only [resolve_clean]
    rw [if_neg (by simp [hp])]
    rw [ih bs (i + 1) st t (fun bj hb => h bj (by simp [hb]))]
    have he : i + 1 + pre'.length = i + (p :: pre').length := by
      simp only [List.length_cons]
      omega
    rw [he]

lemma resolve_clean_none : ∀ (bs : List MicroConf) (i : Nat) (st : List CVal)
    (t : List Char),
    (∀ bj ∈ bs, bj.name.isPrefixOf t = false) →
    resolve_clean bs i st t = .ok st := by
  intro bs
  induction bs with
  | nil => intro i st t _; rfl
  | cons b bs' ih =>
    intro i st t h
    have hb : b.name.isPrefixOf t = false := h b (by simp)
    simp only [resolve_clean]
    rw [if_neg (by simp [hb])]
    exact ih (i + 1) st t (fun bj hj => h bj (by simp [hj]))

lemma process_line_at (pre : List MicroConf) (b : MicroConf)
    (post : List MicroConf) (st : List CVal) (l r : List Char)
    (ht : skipWs (cutComment l) = b.name ++ r)
    (hne : b.name ++ r ≠ [])
    (hpre : ∀ bj ∈ pre, bj.name.isPrefixOf (b.name ++ r) = false) :
    process_line (pre ++ b :: post) st l =
      match convert b.type (extract_value r) with
      | .error e => .error e
      | .ok v => .ok (st.set pre.length v) := by
  rw [process_line_eq_clean]
  unfold process_line_clean
  rw [ht]
  obtain ⟨c, rest, hcr⟩ : ∃ c rest, b.name ++ r = c :: rest := by
    cases hc : b.name ++ r with
    | nil => exact absurd hc hne
    | cons c rest => exact ⟨c, rest, rfl⟩
  have hcws : ¬ IsWs c := skipWs_head_not (cutComment l) c rest (ht.trans hcr)
  have hcnl : ¬ c = '\n' := fun hh => hcws (hh ▸ Or.inr (Or.inl rfl))
  rw [hcr]
  simp only [if_neg hcnl]
  rw [← hcr]
  rw [resolve_clean_skip pre (b :: post) 0 st (b.name ++ r) hpre]
  simp only [resolve_clean, isPrefixOf_append_self, if_true]
  rw [List.drop_left]
  simp

lemma process_line_shape (pre post : List MicroConf) (b : MicroConf)
    (st : List CVal) (w1 w2 w3 w4 sepS v : List Char)
    (hw1 : ∀ c ∈ w1, IsWs c) (hw2 : ∀ c ∈ w2, IsWs c) (hw3 : ∀ c ∈ w3, IsWs c)
    (hw4 : ∀ c ∈ w4, IsTrail c)
    (hsep : sepS = ['='] ∨ sepS = [':'] ∨ sepS = [])
    (hn : b.name ≠ [])
    (hnh : ∀ c, b.name.head? = some c → ¬ IsWs c)
    (hnhash : '#' ∉ b.name) (hvhash : '#' ∉ v)
    (hpre : ∀ bj ∈ pre, bj.name.isPrefixOf
      (b.name ++ (w2 ++ (sepS ++ (w3 ++ (v ++ (w4 ++ ['\n'])))))) = false) :
    process_line (pre ++ b :: post) st
      (w1 ++ (b.name ++ (w2 ++ (sepS ++ (w3 ++ (v ++ (w4 ++ ['\n']))))))) =
      match convert b.type (extract_value (sepS ++ (v ++ ['\n']))) with
      | .error e => .error e
      | .ok val => .ok (st.set pre.length val) := by
  have hnohash : '#' ∉
      w1 ++ (b.name ++ (w2 ++ (sepS ++ (w3 ++ (v ++ (w4 ++ ['\n'])))))) := by
    intro hm
    simp only [List.mem_append, List.mem_singleton] at hm
    rcases hm with h | h | h | h | h | h | h | h
    · exact isWs_ne_hash (hw1 _ h) rfl
    · exact hnhash h
    · exact isWs_ne_hash (hw2 _ h) rfl
    · rcases hsep with hs | hs | hs <;> subst hs <;> revert h <;> decide
    · exact isWs_ne_hash (hw3 _ h) rfl
    · exact hvhash h
    · exact isWs_ne_hash (isTrail_isWs (hw4 _ h)) rfl
    · exact absurd h (by decide)
  obtain ⟨c, nm, hcn⟩ : ∃ c nm, b.name = c :: nm := by
    cases hb : b.name with
    | nil => exact absurd hb hn
    | cons c nm => exact ⟨c, nm, rfl⟩
  have ht : skipWs (cutComment
      (w1 ++ (b.name ++ (w2 ++ (sepS ++ (w3 ++ (v ++ (w4 ++ ['\n'])))))))) =
      b.name ++ (w2 ++ (sepS ++ (w3 ++ (v ++ (w4 ++ ['\n']))))) := by
    rw [cutComment_not_mem _ hnohash, skipWs_append_ws w1 _ hw1, hcn]
    show skipWs (c :: (nm ++ (w2 ++ (sepS ++ (w3 ++ (v ++ (w4 ++ ['\n'])))))))
      = _
    rw [skipWs_cons_not _ (hnh c (by rw [hcn]; rfl))]
    rfl
  have hne : b.name ++ (w2 ++ (sepS ++ (w3 ++ (v ++ (w4 ++ ['\n']))))) ≠ [] := by
    intro hh
    rw [hcn] at hh
    exact List.cons_ne_nil _ _ hh
  rw [process_line_at pre b post st _ _ ht hne hpre]
  rw [extract_value_ws w2 w3 w4 sepS v hw2 hw3 hw4 hsep]

lemma extract_value_nosep (sepS v : List Char)
    (hsep : sepS = ['='] ∨ sepS = [':'] ∨ sepS = [])
    (hv : ∀ c, v.head? = some c → ¬ IsWs c ∧ ¬(c = '=' ∨ c = ':')) :
    extract_value (sepS ++ (v ++ ['\n'])) = trimTrailing v := by
  have hnl : ∀ d ∈ ('\n' :: ([] : List Char)), IsTrail d := by
    intro d hd
    simp at hd
    subst hd
    exact Or.inl rfl
  cases v with
  | nil => rcases hsep with h | h | h <;> subst h <;> decide
  | cons c v' =>
    have hcw : ¬ IsWs c := (hv c rfl).1
    have hcs : ¬(c = '=' ∨ c = ':') := (hv c rfl).2
    rcases hsep with h | h | h
    · subst h
      simp only [List.singleton_append]
      rw [extract_value_cons_sep '=' _ (Or.inl rfl)]
      show trimTrailing (skipWs (c :: (v' ++ ['\n']))) = _
      rw [skipWs_cons_not _ hcw, ← List.cons_append]
      exact trimTrailing_append _ _ hnl
    · subst h
      simp only [List.singleton_append]
      rw [extract_value_cons_sep ':' _ (Or.inr rfl)]
      show trimTrailing (skipWs (c :: (v' ++ ['\n']))) = _
      rw [skipWs_cons_not _ hcw, ← List.cons_append]
      exact trimTrailing_append _ _ hnl
    · subst h
      simp only [List.nil_append]
      show extract_value (c :: (v' ++ ['\n'])) = _
      rw [extract_value_cons_nonsep c _ hcw hcs, ← List.cons_append]
      exact trimTrailing_append _ _ hnl

lemma convert_error_neg : ∀ (t : MicroConfType) (v : List Char) (e : Int),
    convert t v = .error e → e < 0 := by
  intro t v e h
  cases t <;> simp only [convert] at h
  case MICRO_CONF_BOOL =>
    split at h
    · exact absurd h (by simp)
    · split at h
      · exact absurd h (by simp)
      · injection h with he
        subst he
        decide
  case MICRO_CONF_CHAR =>
    split at h
    · exact absurd h (by simp)
    · injection h with he
      subst he
      decide
  case MICRO_CONF_STR => exact absurd h (by simp)
  case MICRO_CONF_INT =>
    split at h
    · exact absurd h (by simp)
    · injection h with he
      subst he
      decide
  case MICRO_CONF_DOUBLE =>
    split at h
    · exact absurd h (by simp)
    · injection h with he
      subst he
      decide
  case MICRO_CONF_FLOAT =>
    split at h
    · exact absurd h (by simp)
    · injection h with he
      subst he
      decide

lemma resolve_error_neg : ∀ (bs : List MicroConf) (i : Nat) (st : List CVal)
    (t : List Char) (read space : Nat) (e : Int),
    resolve bs i st t read space = .error e → e < 0 := by
  intro bs
  induction bs with
  | nil => intro i st t read space e h; simp [resolve] at h
  | cons b rest ih =>
    intro i st t read space e h
    by_cases hp : b.name.isPrefixOf t = true
    · simp only [resolve, if_pos hp] at h
      split at h
      · injection h with he
        subst he
        exact convert_error_neg _ _ _ (by assumption)
      · exact absurd h (by simp)
    · simp only [resolve, if_neg hp] at h
      exact ih _ _ _ _ _ _ h

lemma process_line_error_neg (conf : List MicroConf) (st : List CVal)
    (l : List Char) (e : Int) (h : process_line conf st l = .error e) :
    e < 0 := by
  unfold process_line at h
  split at h
  · exact absurd h (by simp)
  · split at h
    · exact absurd h (by simp)
    · exact resolve_error_neg _ _ _ _ _ _ _ h

lemma parse_lines_ok_append : ∀ (ls1 : List (List Char))
    (conf : List MicroConf) (st st1 : List CVal) (ls2 : List (List Char)),
    parse_lines conf ls1 st = (MICRO_CONF_OK, st1) →
    parse_lines conf (ls1 ++ ls2) st = parse_lines conf ls2 st1 := by
  intro ls1
  induction ls1 with
  | nil =>
    intro conf st st1 ls2 h
    simp only [parse_lines] at h
    injection h with h1 h2
    subst h2
    simp
  | cons l ls1' ih =>
    intro conf st st1 ls2 h
    simp only [parse_lines, List.cons_append] at h ⊢
    cases hpl : process_line conf st l with
    | error e =>
      simp only [hpl] at h
      injection h with h1 h2
      have hneg := process_line_error_neg conf st l e hpl
      rw [h1] at hneg
      simp [MICRO_CONF_OK] at hneg
    | ok st2 =>
      simp only [hpl] at h ⊢
      exact ih conf st2 st1 ls2 h

lemma not_cspace_of_digit {c : Char} (h : c.isDigit = true) : ¬ IsCSpace c := by
  intro hc
  rcases hc with h1 | h1 | h1 | h1 | h1 | h1 <;> subst h1 <;>
    exact absurd h (by decide)

lemma takeDigits_all : ∀ (d : List Char), (∀ c ∈ d, c.isDigit = true) →
    takeDigits d = d := by
  intro d
  induction d with
  | nil => intro _; rfl
  | cons c d' ih =>
    intro h
    simp only [takeDigits, if_pos (h c (by simp))]
    rw [ih (fun x hx => h x (by simp [hx]))]

lemma strtol10_digits (d : List Char) (hne : d ≠ [])
    (hd : ∀ c ∈ d, c.isDigit = true) :
    strtol10 d = (clampLong (digitsToNat d), d.length) := by
  obtain ⟨c, d', rfl⟩ := List.exists_cons_of_ne_nil hne
  have hc : c.isDigit = true := hd c (by simp)
  have h1 : cspaceCount (c :: d') = 0 := by
    simp [cspaceCount, if_neg (not_cspace_of_digit hc)]
  have hm : ¬ (c :: d').head? = some '-' := by
    simp only [List.head?]
    intro hh
    injection hh with hh2
    subst hh2
    exact absurd hc (by decide)
  have hp : ¬ ((c :: d').head? = some '-' ∨ (c :: d').head? = some '+') := by
    rintro (hh | hh) <;> simp only [List.head?] at hh <;>
      injection hh with hh2 <;> subst hh2 <;> exact absurd hc (by decide)
  simp only [strtol10, h1, List.drop_zero, if_neg hm, if_neg hp]
  rw [takeDigits_all (c :: d') hd]
  simp only [if_neg (List.cons_ne_nil c d')]
  simp

lemma convert_int_digits (d : List Char) (hne : d ≠ [])
    (hd : ∀ c ∈ d, c.isDigit = true)
    (hsmall : (digitsToNat d : Int) < 2 ^ 31) :
    convert .MICRO_CONF_INT d = .ok (.vint (digitsToNat d)) := by
  simp only [convert]
  rw [strtol10_digits d hne hd]
  have h0 : (0 : Int) ≤ (digitsToNat d : Int) := Int.ofNat_nonneg _
  have hcl : clampLong (digitsToNat d) = (digitsToNat d : Int) := by
    unfold clampLong
    rw [min_eq_right (by omega), max_eq_right (by omega)]
  have ht : toInt32 (digitsToNat d) = (digitsToNat d : Int) := by
    unfold toInt32
    rw [Int.emod_eq_of_lt (by omega) (by omega)]
    omega
  simp [hcl, ht]

lemma resolve_clean_trailing_space : ∀ (bs : List MicroConf) (i : Nat)
    (st : List CVal) (t : List Char),
    (∀ b ∈ bs, b.name ≠ t ++ [' ']) →
    resolve_clean bs i st (t ++ [' ']) = resolve_clean bs i st t := by
  intro bs
  induction bs with
  | nil => intro i st t _; rfl
  | cons b rest ih =>
    intro i st t h
    have hbn : b.name ≠ t ++ [' '] := h b (by simp)
    cases hp : b.name.isPrefixOf t with
    | true =>
      have hp2 : b.name.isPrefixOf (t ++ [' ']) = true := by
        rw [ List.isPrefixOf_iff_prefix] at hp ⊢
        exact hp.trans (List.prefix_append t [' '])
      have hlen : b.name.length ≤ t.length := by
        rw [ List.isPrefixOf_iff_prefix] at hp
        exact hp.length_le
      simp only [resolve_clean, if_pos hp, if_pos hp2]
      rw [List.drop_append_of_le_length hlen]
      rw [extract_value_trailing (t.drop b.name.length) [' ']
        (by intro d hd; simp at hd; subst hd; exact Or.inr rfl)]
    | false =>
      have hp2 : b.name.isPrefixOf (t ++ [' ']) = false := by
        cases hq : b.name.isPrefixOf (t ++ [' ']) with
        | false => rfl
        | true =>
          exfalso
          rw [ List.isPrefixOf_iff_prefix, List.prefix_concat_iff] at hq
          have hnp : ¬ b.name <+: t := by
            intro hc
            have h2 : b.name.isPrefixOf t = true := by
              rw [ List.isPrefixOf_iff_prefix]
              exact hc
            rw [hp] at h2
            exact Bool.false_ne_true h2
          tauto
      have e1 : resolve_clean (b :: rest) i st (t ++ [' ']) =
          resolve_clean rest (i + 1) st (t ++ [' ']) := by
        simp only [resolve_clean]
        rw [if_neg (show ¬(b.name.isPrefixOf (t ++ [' ']) = true) by simp [hp2])]
      have e2 : resolve_clean (b :: rest) i st t =
          resolve_clean rest (i + 1) st t := by
        simp only [resolve_clean]
        rw [if_neg (show ¬(b.name.isPrefixOf t = true) by simp [hp])]
      rw [e1, e2]
      exact ih (i + 1) st t (fun bj hj => h bj (by simp [hj]))

lemma process_line_drop_trailing_space (conf : List MicroConf)
    (st : List CVal) (x : List Char) (hx : '#' ∉ x)
    (hname : ∀ b ∈ conf, b.name ≠ skipWs x ++ [' ']) :
    process_line conf st (x ++ [' ']) = process_line conf st x := by
  rw [process_line_eq_clean, process_line_eq_clean]
  unfold process_line_clean
  have hxsp : '#' ∉ x ++ [' '] := by
    intro hm
    rcases List.mem_append.mp hm with h | h
    · exact hx h
    · simp at h
  rw [cutComment_not_mem _ hxsp, cutComment_not_mem _ hx]
  rw [skipWs_append]
  by_cases hsx : skipWs x = []
  · rw [if_pos hsx, hsx]
    rfl
  · rw [if_neg hsx]
    obtain ⟨c, y, hcy⟩ : ∃ c y, skipWs x = c :: y := by
      cases hc : skipWs x with
      | nil => exact absurd hc hsx
      | cons c y => exact ⟨c, y, rfl⟩
    rw [hcy]
    simp only [List.cons_append]
    by_cases hcnl : c = '\n'
    · simp [hcnl]
    · simp only [if_neg hcnl]
      rw [← List.cons_append]
      apply resolve_clean_trailing_space
      intro b hb
      rw [← hcy]
      exact hname b hb

/-- C9: for every binding list, calling micro_conf_parse with a path that
cannot be opened for reading (a `none` file, the model of a failed fopen)
returns the MICRO_CONF_ERROR_OPENING_FILE error and leaves every
destination slot unmodified. -/
theorem open_failure_keeps_state (conf : List MicroConf) (st : List CVal) :
    micro_conf_parse (some conf) none st =
      (MICRO_CONF_ERROR_OPENING_FILE, st) := rfl

/-- C2: for every file and binding list, if the lines before `l` all
process successfully (reaching state `st1`) and `l` is the first line
whose conversion fails with error `e`, then micro_conf_parse returns that
specific error `e` immediately: the remaining lines `ls2` are never
processed (the result does not depend on them), and the returned state is
exactly `st1`, i.e. every destination written by the earlier successful
lines keeps its new value — nothing is rolled back. -/
theorem first_error_aborts (conf : List MicroConf) (ls1 : List (List Char))
    (l : List Char) (ls2 : List (List Char)) (st st1 : List CVal) (e : Int)
    (h1 : parse_lines conf ls1 st = (MICRO_CONF_OK, st1))
    (h2 : process_line conf st1 l = .error e) :
    micro_conf_parse (some conf) (some (ls1 ++ l :: ls2)) st = (e, st1) := by
  show parse_lines conf (ls1 ++ l :: ls2) st = (e, st1)
  rw [parse_lines_ok_append ls1 conf st st1 (l :: ls2) h1]
  simp [parse_lines, h2]

/-- Witness for C2: file "a = 1", "b = what", "a = 9" with an Int binding
for "a" and a Bool binding for "b": the call aborts on line 2 with
MICRO_CONF_ERROR_INVALID_BOOL, line 3 is never applied, and slot "a"
keeps the value 1 written by line 1. -/
theorem first_error_aborts_witness :
    parse_lines [⟨.MICRO_CONF_INT, "a".toList⟩, ⟨.MICRO_CONF_BOOL, "b".toList⟩]
        ["a = 1\n".toList] [.vint 0, .vbool false] =
      (MICRO_CONF_OK, [.vint 1, .vbool false]) ∧
    process_line [⟨.MICRO_CONF_INT, "a".toList⟩, ⟨.MICRO_CONF_BOOL, "b".toList⟩]
        [.vint 1, .vbool false] "b = what\n".toList =
      .error MICRO_CONF_ERROR_INVALID_BOOL ∧
    micro_conf_parse
        (some [⟨.MICRO_CONF_INT, "a".toList⟩, ⟨.MICRO_CONF_BOOL, "b".toList⟩])
        (some ["a = 1\n".toList, "b = what\n".toList, "a = 9\n".toList])
        [.vint 0, .vbool false] =
      (MICRO_CONF_ERROR_INVALID_BOOL, [.vint 1, .vbool false]) :=
  ⟨by decide, by decide,
    first_error_aborts
      [⟨.MICRO_CONF_INT, "a".toList⟩, ⟨.MICRO_CONF_BOOL, "b".toList⟩]
      ["a = 1\n".toList] "b = what\n".toList ["a = 9\n".toList]
      [.vint 0, .vbool false] [.vint 1, .vbool false]
      MICRO_CONF_ERROR_INVALID_BOOL (by decide) (by decide)⟩

/-- C5: a line whose trimmed text does not start with any binding's key is
silently skipped: process_line returns `.ok` with the state untouched,
and in the line loop the line contributes nothing. -/
theorem unknown_key_skipped (conf : List MicroConf) (st : List CVal)
    (l : List Char) (ls : List (List Char))
    (h : ∀ b ∈ conf, b.name.isPrefixOf (skipWs (cutComment l)) = false) :
    process_line conf st l = .ok st ∧
    parse_lines conf (l :: ls) st = parse_lines conf ls st := by
  have h1 : process_line conf st l = .ok st := by
    rw [process_line_eq_clean]
    unfold process_line_clean
    cases hs : skipWs (cutComment l) with
    | nil => rfl
    | cons c rest =>
      by_cases hc : c = '\n'
      · simp [hc]
      · simp only [if_neg hc]
        apply resolve_clean_none
        intro bj hb
        have h2 := h bj hb
        rwa [hs] at h2
  refine ⟨h1, ?_⟩
  simp [parse_lines, h1]

/-- Witness for C5: the line "beta = 3" matches no binding named "alpha";
it is skipped without error and without touching the destination. -/
theorem unknown_key_skipped_witness :
    (∀ b ∈ [(⟨.MICRO_CONF_INT, "alpha".toList⟩ : MicroConf)],
      b.name.isPrefixOf (skipWs (cutComment "beta = 3\n".toList)) = false) ∧
    process_line [⟨.MICRO_CONF_INT, "alpha".toList⟩] [.vint 7]
      "beta = 3\n".toList = .ok [.vint 7] ∧
    parse_lines [⟨.MICRO_CONF_INT, "alpha".toList⟩]
        ["beta = 3\n".toList, "alpha = 1\n".toList] [.vint 7] =
      parse_lines [⟨.MICRO_CONF_INT, "alpha".toList⟩]
        ["alpha = 1\n".toList] [.vint 7] :=
  ⟨by decide,
    (unknown_key_skipped _ [.vint 7] _ ["alpha = 1\n".toList] (by decide)).1,
    (unknown_key_skipped _ [.vint 7] _ ["alpha = 1\n".toList] (by decide)).2⟩

/-- C3: for an Int-typed binding matched with value string `v`, the
strtol conversion must consume the entire value string: if it does not
((strtol10 v).2 ≠ v.length, e.g. "12abc"), process_line fails with
MICRO_CONF_ERROR_INVALID_INT and micro_conf_parse aborts returning that
error with the state — in particular the binding's destination —
untouched by that line.  Conversely a pure digit string is parsed as the
base-10 integer it denotes (stated for values below 2^31, where no
narrowing wrap occurs). -/
theorem int_strict_validation (pre post : List MicroConf) (b : MicroConf)
    (st : List CVal) (v : List Char) (ls : List (List Char))
    (hty : b.type = .MICRO_CONF_INT)
    (hn : b.name ≠ [])
    (hnh : ∀ c, b.name.head? = some c → ¬ IsWs c)
    (hnhash : '#' ∉ b.name) (hvhash : '#' ∉ v)
    (hvh : ∀ c, v.head? = some c → ¬ IsWs c ∧ ¬(c = '=' ∨ c = ':'))
    (htv : trimTrailing v = v)
    (hstrict : (strtol10 v).2 ≠ v.length)
    (hpre : ∀ bj ∈ pre, bj.name.isPrefixOf
      (b.name ++ ('=' :: (v ++ ['\n']))) = false) :
    process_line (pre ++ b :: post) st (b.name ++ ('=' :: (v ++ ['\n']))) =
      .error MICRO_CONF_ERROR_INVALID_INT ∧
    micro_conf_parse (some (pre ++ b :: post))
        (some ((b.name ++ ('=' :: (v ++ ['\n']))) :: ls)) st =
      (MICRO_CONF_ERROR_INVALID_INT, st) ∧
    (∀ d : List Char, d ≠ [] → (∀ c ∈ d, c.isDigit = true) →
      (digitsToNat d : Int) < 2 ^ 31 →
      convert .MICRO_CONF_INT d = .ok (.vint (digitsToNat d))) := by
  have hmain := process_line_shape pre post b st [] [] [] [] ['='] v
    (by simp) (by simp) (by simp) (by simp) (Or.inl rfl) hn hnh hnhash hvhash
    hpre
  rw [extract_value_nosep ['='] v (Or.inl rfl) hvh, htv, hty] at hmain
  have hconv : convert MicroConfType.MICRO_CONF_INT v =
      .error MICRO_CONF_ERROR_INVALID_INT := by
    simp only [convert]
    rw [if_neg hstrict]
  rw [hconv] at hmain
  have h1 : process_line (pre ++ b :: post) st
      (b.name ++ ('=' :: (v ++ ['\n']))) =
      .error MICRO_CONF_ERROR_INVALID_INT := hmain
  refine ⟨h1, ?_, fun d hd1 hd2 hd3 => convert_int_digits d hd1 hd2 hd3⟩
  show parse_lines (pre ++ b :: post)
    ((b.name ++ ('=' :: (v ++ ['\n']))) :: ls) st = _
  simp [parse_lines, h1]

/-- Witness for C3: binding (Int, "key"), line "key = 12abc": strtol stops
after "12", so the parse aborts with MICRO_CONF_ERROR_INVALID_INT and the
destination keeps its prior value 7; and "12" alone converts to 12. -/
theorem int_strict_validation_witness :
    (strtol10 "12abc".toList).2 ≠ "12abc".toList.length ∧
    process_line [⟨.MICRO_CONF_INT, "key".toList⟩] [.vint 7]
      ("key".toList ++ ('=' :: ("12abc".toList ++ ['\n']))) =
      .error MICRO_CONF_ERROR_INVALID_INT ∧
    micro_conf_parse (some [⟨.MICRO_CONF_INT, "key".toList⟩])
        (some [("key".toList ++ ('=' :: ("12abc".toList ++ ['\n'])))])
        [.vint 7] =
      (MICRO_CONF_ERROR_INVALID_INT, [.vint 7]) ∧
    convert .MICRO_CONF_INT "12".toList = .ok (.vint 12) := by
  have h := int_strict_validation [] [] ⟨.MICRO_CONF_INT, "key".toList⟩
    [.vint 7] "12abc".toList [] rfl (by decide) (by decide) (by decide)
    (by decide) (by decide) (by decide) (by decide) (by decide)
  exact ⟨by decide, h.1, h.2.1, by
    have h3 := h.2.2 "12".toList (by decide) (by decide) (by decide)
    simpa using h3⟩

/-- C4: for a Bool-typed binding, the value strings "true" and "1" write
true to the binding's destination slot, "false" and "0" write false, and
every other (already-trimmed) value string makes process_line — hence
micro_conf_parse — fail with MICRO_CONF_ERROR_INVALID_BOOL; at the
conversion level the acceptance set is exactly those four strings. -/
theorem bool_acceptance_set (pre post : List MicroConf) (b : MicroConf)
    (st : List CVal) (v : List Char)
    (hty : b.type = .MICRO_CONF_BOOL)
    (hn : b.name ≠ [])
    (hnh : ∀ c, b.name.head? = some c → ¬ IsWs c)
    (hnhash : '#' ∉ b.name) (hvhash : '#' ∉ v)
    (hvh : ∀ c, v.head? = some c → ¬ IsWs c ∧ ¬(c = '=' ∨ c = ':'))
    (hpre : ∀ bj ∈ pre, bj.name.isPrefixOf
      (b.name ++ ('=' :: (v ++ ['\n']))) = false) :
    ((v = "true".toList ∨ v = "1".toList) →
      process_line (pre ++ b :: post) st (b.name ++ ('=' :: (v ++ ['\n']))) =
        .ok (st.set pre.length (.vbool true))) ∧
    ((v = "false".toList ∨ v = "0".toList) →
      process_line (pre ++ b :: post) st (b.name ++ ('=' :: (v ++ ['\n']))) =
        .ok (st.set pre.length (.vbool false))) ∧
    ((trimTrailing v = v ∧ v ≠ "true".toList ∧ v ≠ "1".toList ∧
        v ≠ "false".toList ∧ v ≠ "0".toList) →
      process_line (pre ++ b :: post) st (b.name ++ ('=' :: (v ++ ['\n']))) =
        .error MICRO_CONF_ERROR_INVALID_BOOL ∧
      micro_conf_parse (some (pre ++ b :: post))
          (some [b.name ++ ('=' :: (v ++ ['\n']))]) st =
        (MICRO_CONF_ERROR_INVALID_BOOL, st)) ∧
    (∀ w : List Char, w ≠ "true".toList → w ≠ "1".toList →
      w ≠ "false".toList → w ≠ "0".toList →
      convert .MICRO_CONF_BOOL w = .error MICRO_CONF_ERROR_INVALID_BOOL) := by
  have hmain := process_line_shape pre post b st [] [] [] [] ['='] v
    (by simp) (by simp) (by simp) (by simp) (Or.inl rfl) hn hnh hnhash hvhash
    hpre
  rw [extract_value_nosep ['='] v (Or.inl rfl) hvh, hty] at hmain
  have hother : ∀ w : List Char, w ≠ "true".toList → w ≠ "1".toList →
      w ≠ "false".toList → w ≠ "0".toList →
      convert .MICRO_CONF_BOOL w = .error MICRO_CONF_ERROR_INVALID_BOOL := by
    intro w h1 h2 h3 h4
    simp only [convert]
    rw [if_neg (by rintro (h | h) <;> [exact h1 h; exact h2 h]),
      if_neg (by rintro (h | h) <;> [exact h3 h; exact h4 h])]
  refine ⟨?_, ?_, ?_, hother⟩
  · intro hv4
    have htv : trimTrailing v = v := by
      rcases hv4 with h | h <;> subst h <;> decide
    have hconv : convert MicroConfType.MICRO_CONF_BOOL v =
        .ok (.vbool true) := by
      rcases hv4 with h | h <;> subst h <;> decide
    rw [htv, hconv] at hmain
    exact hmain
  · intro hv4
    have htv : trimTrailing v = v := by
      rcases hv4 with h | h <;> subst h <;> decide
    have hconv : convert MicroConfType.MICRO_CONF_BOOL v =
        .ok (.vbool false) := by
      rcases hv4 with h | h <;> subst h <;> decide
    rw [htv, hconv] at hmain
    exact hmain
  · rintro ⟨htv, h1, h2, h3, h4⟩
    rw [htv, hother v h1 h2 h3 h4] at hmain
    refine ⟨hmain, ?_⟩
    show parse_lines (pre ++ b :: post)
      [b.name ++ ('=' :: (v ++ ['\n']))] st = _
    simp only [parse_lines]
    rw [show process_line (pre ++ b :: post) st
      (b.name ++ ('=' :: (v ++ ['\n']))) =
      Except.error MICRO_CONF_ERROR_INVALID_BOOL from hmain]

/-- Witness for C4: binding (Bool, "flag"): "flag=true" writes true,
"flag=0" writes false, "flag=yes" aborts with
MICRO_CONF_ERROR_INVALID_BOOL, and convert rejects "TRUE". -/
theorem bool_acceptance_set_witness :
    process_line [⟨.MICRO_CONF_BOOL, "flag".toList⟩] [.vbool false]
      ("flag".toList ++ ('=' :: ("true".toList ++ ['\n']))) =
      .ok [.vbool true] ∧
    process_line [⟨.MICRO_CONF_BOOL, "flag".toList⟩] [.vbool true]
      ("flag".toList ++ ('=' :: ("0".toList ++ ['\n']))) =
      .ok [.vbool false] ∧
    process_line [⟨.MICRO_CONF_BOOL, "flag".toList⟩] [.vbool false]
      ("flag".toList ++ ('=' :: ("yes".toList ++ ['\n']))) =
      .error MICRO_CONF_ERROR_INVALID_BOOL ∧
    micro_conf_parse (some [⟨.MICRO_CONF_BOOL, "flag".toList⟩])
        (some [("flag".toList ++ ('=' :: ("yes".toList ++ ['\n'])))])
        [.vbool false] =
      (MICRO_CONF_ERROR_INVALID_BOOL, [.vbool false]) ∧
    convert .MICRO_CONF_BOOL "TRUE".toList =
      .error MICRO_CONF_ERROR_INVALID_BOOL := by
  refine ⟨?_, ?_, ?_, ?_, ?_⟩
  · have h := (bool_acceptance_set [] [] ⟨.MICRO_CONF_BOOL, "flag".toList⟩
      [.vbool false] "true".toList rfl (by decide) (by decide) (by decide)
      (by decide) (by decide) (by decide)).1 (Or.inl rfl)
    simpa using h
  · have h := (bool_acceptance_set [] [] ⟨.MICRO_CONF_BOOL, "flag".toList⟩
      [.vbool true] "0".toList rfl (by decide) (by decide) (by decide)
      (by decide) (by decide) (by decide)).2.1 (Or.inr rfl)
    simpa using h
  · have h := ((bool_acceptance_set [] [] ⟨.MICRO_CONF_BOOL, "flag".toList⟩
      [.vbool false] "yes".toList rfl (by decide) (by decide) (by decide)
      (by decide) (by decide) (by decide)).2.2.1
      (by refine ⟨by decide, by decide, by decide, by decide, by decide⟩)).1
    simpa using h
  · have h := ((bool_acceptance_set [] [] ⟨.MICRO_CONF_BOOL, "flag".toList⟩
      [.vbool false] "yes".toList rfl (by decide) (by decide) (by decide)
      (by decide) (by decide) (by decide)).2.2.1
      (by refine ⟨by decide, by decide, by decide, by decide, by decide⟩)).2
    simpa using h
  · have h := (bool_acceptance_set [] [] ⟨.MICRO_CONF_BOOL, "flag".toList⟩
      [.vbool false] "TRUE".toList rfl (by decide) (by decide) (by decide)
      (by decide) (by decide) (by decide)).2.2.2 "TRUE".toList
      (by decide) (by decide) (by decide) (by decide)
    exact h

/-- C10: a matched line with an empty value string (the line "key=") is
accepted for Int, Double and Float bindings and writes zero to the
destination slot (strtol/strtod perform no conversion and return 0, and
the empty string leaves endptr at the terminator, which the code treats
as full consumption), while the same empty value is rejected with
MICRO_CONF_ERROR_INVALID_BOOL for a Bool binding and
MICRO_CONF_ERROR_INVALID_CHAR for a Char binding. -/
theorem empty_value_behaviour (pre post : List MicroConf) (b : MicroConf)
    (st : List CVal)
    (hn : b.name ≠ [])
    (hnh : ∀ c, b.name.head? = some c → ¬ IsWs c)
    (hnhash : '#' ∉ b.name)
    (hpre : ∀ bj ∈ pre, bj.name.isPrefixOf
      (b.name ++ ['=', '\n']) = false) :
    (b.type = .MICRO_CONF_INT →
      process_line (pre ++ b :: post) st (b.name ++ ['=', '\n']) =
        .ok (st.set pre.length (.vint 0))) ∧
    (b.type = .MICRO_CONF_DOUBLE →
      process_line (pre ++ b :: post) st (b.name ++ ['=', '\n']) =
        .ok (st.set pre.length (.vdouble 0))) ∧
    (b.type = .MICRO_CONF_FLOAT →
      process_line (pre ++ b :: post) st (b.name ++ ['=', '\n']) =
        .ok (st.set pre.length (.vfloat 0))) ∧
    (b.type = .MICRO_CONF_BOOL →
      process_line (pre ++ b :: post) st (b.name ++ ['=', '\n']) =
        .error MICRO_CONF_ERROR_INVALID_BOOL) ∧
    (b.type = .MICRO_CONF_CHAR →
      process_line (pre ++ b :: post) st (b.name ++ ['=', '\n']) =
        .error MICRO_CONF_ERROR_INVALID_CHAR) := by
  have hmain := process_line_shape pre post b st [] [] [] [] ['='] []
    (by simp) (by simp) (by simp) (by simp) (Or.inl rfl) hn hnh hnhash
    (by simp) hpre
  have hev : extract_value (['='] ++ (([] : List Char) ++ ['\n'])) = [] := by
    decide
  rw [hev] at hmain
  refine ⟨?_, ?_, ?_, ?_, ?_⟩ <;> intro hty <;> rw [hty] at hmain
  · rw [show convert MicroConfType.MICRO_CONF_INT ([] : List Char) =
      .ok (.vint 0) by decide] at hmain
    exact hmain
  · rw [show convert MicroConfType.MICRO_CONF_DOUBLE ([] : List Char) =
      .ok (.vdouble 0) by decide] at hmain
    exact hmain
  · rw [show convert MicroConfType.MICRO_CONF_FLOAT ([] : List Char) =
      .ok (.vfloat 0) by decide] at hmain
    exact hmain
  · rw [show convert MicroConfType.MICRO_CONF_BOOL ([] : List Char) =
      .error MICRO_CONF_ERROR_INVALID_BOOL by decide] at hmain
    exact hmain
  · rw [show convert MicroConfType.MICRO_CONF_CHAR ([] : List Char) =
      .error MICRO_CONF_ERROR_INVALID_CHAR by decide] at hmain
    exact hmain

/-- Witness for C10: "k=" writes 0 to an Int binding and 0.0 to a Double
binding, but is MICRO_CONF_ERROR_INVALID_CHAR for a Char binding. -/
theorem empty_value_behaviour_witness :
    process_line [⟨.MICRO_CONF_INT, "k".toList⟩] [.vint 7]
      ("k".toList ++ ['=', '\n']) = .ok [.vint 0] ∧
    process_line [⟨.MICRO_CONF_DOUBLE, "k".toList⟩] [.vdouble 5]
      ("k".toList ++ ['=', '\n']) = .ok [.vdouble 0] ∧
    process_line [⟨.MICRO_CONF_CHAR, "k".toList⟩] [.vchar 'z']
      ("k".toList ++ ['=', '\n']) = .error MICRO_CONF_ERROR_INVALID_CHAR := by
  refine ⟨?_, ?_, ?_⟩
  · have h := (empty_value_behaviour [] [] ⟨.MICRO_CONF_INT, "k".toList⟩
      [.vint 7] (by decide) (by decide) (by decide) (by decide)).1 rfl
    simpa using h
  · have h := (empty_value_behaviour [] [] ⟨.MICRO_CONF_DOUBLE, "k".toList⟩
      [.vdouble 5] (by decide) (by decide) (by decide) (by decide)).2.1 rfl
    simpa using h
  · have h := (empty_value_behaviour [] [] ⟨.MICRO_CONF_CHAR, "k".toList⟩
      [.vchar 'z'] (by decide) (by decide) (by decide) (by decide)).2.2.2.2 rfl
    simpa using h

/-- C6: the binding applied to a line is the first one, in caller order,
whose key is a byte-exact literal prefix of the trimmed line (the
decomposition hypothesis `skipWs (cutComment l) = b.name ++ r` is exactly
prefix matching, with no word-boundary check, so a key "x" also matches a
line "xy = 1"); at most that single binding's slot is written for the
line (the result is `st.set pre.length v` or an error leaving `st`);
and when two lines match the same binding and both convert successfully,
the slot ends up holding the second line's value: last write wins. -/
theorem first_match_last_write_wins (pre post : List MicroConf)
    (b : MicroConf) (st : List CVal) (l1 l2 r1 r2 : List Char)
    (v1 v2 : CVal) (ls : List (List Char))
    (ht1 : skipWs (cutComment l1) = b.name ++ r1)
    (ht2 : skipWs (cutComment l2) = b.name ++ r2)
    (hne1 : b.name ++ r1 ≠ []) (hne2 : b.name ++ r2 ≠ [])
    (hpre1 : ∀ bj ∈ pre, bj.name.isPrefixOf (b.name ++ r1) = false)
    (hpre2 : ∀ bj ∈ pre, bj.name.isPrefixOf (b.name ++ r2) = false) :
    (∀ e, convert b.type (extract_value r1) = .error e →
      process_line (pre ++ b :: post) st l1 = .error e) ∧
    (∀ v, convert b.type (extract_value r1) = .ok v →
      process_line (pre ++ b :: post) st l1 = .ok (st.set pre.length v)) ∧
    (convert b.type (extract_value r1) = .ok v1 →
      convert b.type (extract_value r2) = .ok v2 →
      parse_lines (pre ++ b :: post) (l1 :: l2 :: ls) st =
        parse_lines (pre ++ b :: post) ls (st.set pre.length v2)) := by
  refine ⟨?_, ?_, ?_⟩
  · intro e he
    have hm := process_line_at pre b post st l1 r1 ht1 hne1 hpre1
    rw [he] at hm
    exact hm
  · intro v hv
    have hm := process_line_at pre b post st l1 r1 ht1 hne1 hpre1
    rw [hv] at hm
    exact hm
  · intro hc1 hc2
    have ha : process_line (pre ++ b :: post) st l1 =
        .ok (st.set pre.length v1) := by
      have hm := process_line_at pre b post st l1 r1 ht1 hne1 hpre1
      rw [hc1] at hm
      exact hm
    have hb2 : process_line (pre ++ b :: post) (st.set pre.length v1) l2 =
        .ok ((st.set pre.length v1).set pre.length v2) := by
      have hm := process_line_at pre b post (st.set pre.length v1) l2 r2
        ht2 hne2 hpre2
      rw [hc2] at hm
      exact hm
    simp only [parse_lines, ha, hb2]
    rw [List.set_set]

/-- Witness for C6: binding (Str, "x"): the key "x" prefix-matches the
line "xy = 1" (value "y = 1" — no word-boundary check), and after the
second matching line "x: 2" the slot holds "2": last write wins. -/
theorem first_match_last_write_wins_witness :
    skipWs (cutComment "xy = 1\n".toList) = "x".toList ++ "y = 1\n".toList ∧
    convert .MICRO_CONF_STR (extract_value "y = 1\n".toList) =
      .ok (.vstr "y = 1".toList) ∧
    parse_lines [⟨.MICRO_CONF_STR, "x".toList⟩]
        ["xy = 1\n".toList, "x: 2\n".toList] [.vstr []] =
      parse_lines [⟨.MICRO_CONF_STR, "x".toList⟩] []
        ([.vstr []].set 0 (.vstr "2".toList)) := by
  refine ⟨by decide, by decide, ?_⟩
  have h := (first_match_last_write_wins [] [] ⟨.MICRO_CONF_STR, "x".toList⟩
    [.vstr []] "xy = 1\n".toList "x: 2\n".toList "y = 1\n".toList
    ": 2\n".toList (.vstr "y = 1".toList) (.vstr "2".toList) []
    (by decide) (by decide) (by decide) (by decide) (by decide)
    (by decide)).2.2 (by decide) (by decide)
  simpa using h

/-- C8: after the matched key any whitespace is skipped and one `=` or
`:`, when it is the next non-whitespace character, is consumed; the
separator is optional.  Hence for the same key, value and surrounding
whitespace, the lines "key = value", "key: value" and "key value"
(whitespace only, `w2 ++ w3` playing the role of the separator gap) all
produce the same result, namely the conversion of the trimmed value
written to the matched binding's slot. -/
theorem separator_optional (pre post : List MicroConf) (b : MicroConf)
    (st : List CVal) (w2 w3 v : List Char)
    (hw2 : ∀ c ∈ w2, IsWs c) (hw3 : ∀ c ∈ w3, IsWs c)
    (hn : b.name ≠ [])
    (hnh : ∀ c, b.name.head? = some c → ¬ IsWs c)
    (hnhash : '#' ∉ b.name) (hvhash : '#' ∉ v)
    (hvh : ∀ c, v.head? = some c → ¬ IsWs c ∧ ¬(c = '=' ∨ c = ':'))
    (hpre1 : ∀ bj ∈ pre, bj.name.isPrefixOf
      (b.name ++ (w2 ++ (['='] ++ (w3 ++ (v ++ ['\n']))))) = false)
    (hpre2 : ∀ bj ∈ pre, bj.name.isPrefixOf
      (b.name ++ (w2 ++ ([':'] ++ (w3 ++ (v ++ ['\n']))))) = false)
    (hpre3 : ∀ bj ∈ pre, bj.name.isPrefixOf
      (b.name ++ (w2 ++ (w3 ++ (v ++ ['\n'])))) = false) :
    process_line (pre ++ b :: post) st
        (b.name ++ (w2 ++ (['='] ++ (w3 ++ (v ++ ['\n']))))) =
      process_line (pre ++ b :: post) st
        (b.name ++ (w2 ++ ([':'] ++ (w3 ++ (v ++ ['\n']))))) ∧
    process_line (pre ++ b :: post) st
        (b.name ++ (w2 ++ (['='] ++ (w3 ++ (v ++ ['\n']))))) =
      process_line (pre ++ b :: post) st
        (b.name ++ (w2 ++ (w3 ++ (v ++ ['\n'])))) ∧
    process_line (pre ++ b :: post) st
        (b.name ++ (w2 ++ (['='] ++ (w3 ++ (v ++ ['\n']))))) =
      match convert b.type (trimTrailing v) with
      | .error e => .error e
      | .ok val => .ok (st.set pre.length val) := by
  have h1 := process_line_shape pre post b st [] w2 w3 [] ['='] v
    (by simp) hw2 hw3 (by simp) (Or.inl rfl) hn hnh hnhash hvhash hpre1
  have h2 := process_line_shape pre post b st [] w2 w3 [] [':'] v
    (by simp) hw2 hw3 (by simp) (Or.inr (Or.inl rfl)) hn hnh hnhash hvhash
    hpre2
  have h3 := process_line_shape pre post b st [] w2 w3 [] [] v
    (by simp) hw2 hw3 (by simp) (Or.inr (Or.inr rfl)) hn hnh hnhash hvhash
    hpre3
  rw [extract_value_nosep ['='] v (Or.inl rfl) hvh] at h1
  rw [extract_value_nosep [':'] v (Or.inr (Or.inl rfl)) hvh] at h2
  rw [extract_value_nosep [] v (Or.inr (Or.inr rfl)) hvh] at h3
  exact ⟨h1.trans h2.symm, h1.trans h3.symm, h1⟩

/-- Witness for C8: with binding (Int, "n"), the lines "n = 4", "n: 4"
and "n 4" all write 4. -/
theorem separator_optional_witness :
    process_line [⟨.MICRO_CONF_INT, "n".toList⟩] [.vint 9]
        ("n".toList ++ ([' '] ++ (['='] ++ ([' '] ++ ("4".toList ++ ['\n']))))) =
      process_line [⟨.MICRO_CONF_INT, "n".toList⟩] [.vint 9]
        ("n".toList ++ ([' '] ++ ([':'] ++ ([' '] ++ ("4".toList ++ ['\n']))))) ∧
    process_line [⟨.MICRO_CONF_INT, "n".toList⟩] [.vint 9]
        ("n".toList ++ ([' '] ++ (['='] ++ ([' '] ++ ("4".toList ++ ['\n']))))) =
      process_line [⟨.MICRO_CONF_INT, "n".toList⟩] [.vint 9]
        ("n".toList ++ ([' '] ++ ([' '] ++ ("4".toList ++ ['\n'])))) ∧
    process_line [⟨.MICRO_CONF_INT, "n".toList⟩] [.vint 9]
        ("n".toList ++ ([' '] ++ (['='] ++ ([' '] ++ ("4".toList ++ ['\n']))))) =
      .ok [.vint 4] := by
  have h := separator_optional [] [] ⟨.MICRO_CONF_INT, "n".toList⟩ [.vint 9]
    [' '] [' '] "4".toList (by decide) (by decide) (by decide) (by decide)
    (by decide) (by decide) (by decide) (by decide) (by decide) (by decide)
  refine ⟨h.1, h.2.1, ?_⟩
  have h3 := h.2.2
  rw [show (match convert (⟨.MICRO_CONF_INT, "n".toList⟩ : MicroConf).type
      (trimTrailing "4".toList) with
      | Except.error e => Except.error e
      | Except.ok val => Except.ok (([.vint 9] : List CVal).set
          (List.length ([] : List MicroConf)) val)) =
      (Except.ok [CVal.vint 4] : Except Int (List CVal)) by decide] at h3
  exact h3

/-- C1 (amended): whitespace insensitivity as the code actually provides
it.  For a fixed matched binding `b` (the first whose key prefixes the
trimmed line, on both sides), separator choice and value `v`, the result
of process_line does not depend on the whitespace fields: spaces or tabs
before the key (`w1`/`u1`) and around the separator (`w2`,`w3`/`u2`,`u3`)
may be changed freely, and spaces — but not tabs — after the value
(`w4`/`u4`) may be changed freely.  (A tab after the value is NOT
insignificant: it survives the trailing trim and becomes part of the
value string, see the counterexample.) -/
theorem whitespace_insensitive (pre post : List MicroConf) (b : MicroConf)
    (st : List CVal) (w1 w2 w3 w4 u1 u2 u3 u4 sepS v : List Char)
    (hw1 : ∀ c ∈ w1, IsWs c) (hw2 : ∀ c ∈ w2, IsWs c)
    (hw3 : ∀ c ∈ w3, IsWs c) (hw4 : ∀ c ∈ w4, c = ' ')
    (hu1 : ∀ c ∈ u1, IsWs c) (hu2 : ∀ c ∈ u2, IsWs c)
    (hu3 : ∀ c ∈ u3, IsWs c) (hu4 : ∀ c ∈ u4, c = ' ')
    (hsep : sepS = ['='] ∨ sepS = [':'] ∨ sepS = [])
    (hn : b.name ≠ [])
    (hnh : ∀ c, b.name.head? = some c → ¬ IsWs c)
    (hnhash : '#' ∉ b.name) (hvhash : '#' ∉ v)
    (hpre1 : ∀ bj ∈ pre, bj.name.isPrefixOf
      (b.name ++ (w2 ++ (sepS ++ (w3 ++ (v ++ (w4 ++ ['\n'])))))) = false)
    (hpre2 : ∀ bj ∈ pre, bj.name.isPrefixOf
      (b.name ++ (u2 ++ (sepS ++ (u3 ++ (v ++ (u4 ++ ['\n'])))))) = false) :
    process_line (pre ++ b :: post) st
        (w1 ++ (b.name ++ (w2 ++ (sepS ++ (w3 ++ (v ++ (w4 ++ ['\n']))))))) =
    process_line (pre ++ b :: post) st
        (u1 ++ (b.name ++ (u2 ++ (sepS ++ (u3 ++ (v ++ (u4 ++ ['\n']))))))) := by
  have h1 := process_line_shape pre post b st w1 w2 w3 w4 sepS v
    hw1 hw2 hw3 (fun c hc => Or.inr (hw4 c hc)) hsep hn hnh hnhash hvhash
    hpre1
  have h2 := process_line_shape pre post b st u1 u2 u3 u4 sepS v
    hu1 hu2 hu3 (fun c hc => Or.inr (hu4 c hc)) hsep hn hnh hnhash hvhash
    hpre2
  exact h1.trans h2.symm

/-- Counterexample to C1 as stated: with the single binding (Int, "key")
the line "key = 5" parses successfully and writes 5, but inserting a TAB
after the value ("key = 5\t") yields MICRO_CONF_ERROR_INVALID_INT instead
of the same result: the trailing trim at micro-conf.h:256 removes only
newlines and spaces, so the tab stays in the value string and strtol
stops before it.  Whitespace after the value is therefore not
insignificant for tabs. -/
theorem whitespace_insensitive_counterexample :
    micro_conf_parse (some [⟨.MICRO_CONF_INT, "key".toList⟩])
        (some ["key = 5\n".toList]) [.vint 7] =
      (MICRO_CONF_OK, [.vint 5]) ∧
    micro_conf_parse (some [⟨.MICRO_CONF_INT, "key".toList⟩])
        (some [("key = 5" ++ "\t" ++ "\n").toList]) [.vint 7] =
      (MICRO_CONF_ERROR_INVALID_INT, [.vint 7]) ∧
    micro_conf_parse (some [⟨.MICRO_CONF_INT, "key".toList⟩])
        (some [("key = 5" ++ "\t" ++ "\n").toList]) [.vint 7] ≠
      micro_conf_parse (some [⟨.MICRO_CONF_INT, "key".toList⟩])
        (some ["key = 5\n".toList]) [.vint 7] :=
  ⟨by decide, by decide, by decide⟩

/-- Witness for C1 (amended): " key\t =  5 \n" and "key= 5\n" produce the
same result for the binding (Int, "key"). -/
theorem whitespace_insensitive_witness :
    process_line [⟨.MICRO_CONF_INT, "key".toList⟩] [.vint 7]
        ([' '] ++ ("key".toList ++ (['\t'] ++ (['='] ++
          ([' ', ' '] ++ ("5".toList ++ ([' '] ++ ['\n']))))))) =
      process_line [⟨.MICRO_CONF_INT, "key".toList⟩] [.vint 7]
        ([] ++ ("key".toList ++ ([] ++ (['='] ++
          ([' '] ++ ("5".toList ++ ([] ++ ['\n']))))))) ∧
    process_line [⟨.MICRO_CONF_INT, "key".toList⟩] [.vint 7]
        ([] ++ ("key".toList ++ ([] ++ (['='] ++
          ([' '] ++ ("5".toList ++ ([] ++ ['\n']))))))) = .ok [.vint 5] :=
  ⟨whitespace_insensitive [] [] ⟨.MICRO_CONF_INT, "key".toList⟩ [.vint 7]
      [' '] ['\t'] [' ', ' '] [' '] [] [] [' '] [] ['='] "5".toList
      (by decide) (by decide) (by decide) (by decide) (by decide) (by decide)
      (by decide) (by decide) (Or.inl rfl) (by decide) (by decide)
      (by decide) (by decide) (by decide) (by decide),
    by decide⟩

/-- C7 (amended): everything from the first '#' to end of line is
discarded before key matching (first conjunct, for every binding list and
state), and a line that is entirely comment or whitespace is skipped
without effect (third conjunct).  The illustration

  "key = 5 # comment"  parses identically to  "key = 5"

holds PROVIDED no binding's key is the 8-character string "key = 5 "
(the comment-adjacent text with its trailing space): comment truncation
leaves that trailing space in the candidate text, so a pathological
binding key equal to "key = 5 " matches the commented line but not the
bare one — see the counterexample. -/
theorem comment_discarded :
    (∀ (conf : List MicroConf) (st : List CVal) (s t : List Char),
      process_line conf st (s ++ '#' :: t) = process_line conf st s) ∧
    (∀ (conf : List MicroConf) (st : List CVal),
      (∀ b ∈ conf, b.name ≠ "key = 5 ".toList) →
      process_line conf st "key = 5 # comment".toList =
        process_line conf st "key = 5".toList) ∧
    (∀ (conf : List MicroConf) (st : List CVal) (l : List Char),
      skipWs (cutComment l) = [] → process_line conf st l = .ok st) := by
  have hp1 : ∀ (conf : List MicroConf) (st : List CVal) (s t : List Char),
      process_line conf st (s ++ '#' :: t) = process_line conf st s := by
    intro conf st s t
    rw [process_line_eq_clean, process_line_eq_clean]
    unfold process_line_clean
    rw [cutComment_append_hash]
  refine ⟨hp1, ?_, ?_⟩
  · intro conf st hname
    have e1 : ("key = 5 # comment".toList : List Char) =
        "key = 5 ".toList ++ '#' :: " comment".toList := by decide
    rw [e1, hp1 conf st "key = 5 ".toList " comment".toList]
    have e2 : ("key = 5 ".toList : List Char) = "key = 5".toList ++ [' '] := by
      decide
    rw [e2]
    apply process_line_drop_trailing_space
    · decide
    · intro b hb
      rw [show skipWs ("key = 5".toList) ++ [' '] = "key = 5 ".toList by decide]
      exact hname b hb
  · intro conf st l h
    rw [process_line_eq_clean]
    unfold process_line_clean
    rw [h]

/-- Counterexample to C7's illustration as universally stated: with the
pathological binding key "key = 5 " (trailing space, Str-typed), the line
"key = 5 # comment" matches it (the comment cut leaves "key = 5 ", which
equals the key) and overwrites the slot with the empty string, while
"key = 5" matches nothing and leaves the slot untouched: the two lines do
not parse identically for every binding list. -/
theorem comment_discarded_counterexample :
    process_line [⟨.MICRO_CONF_STR, "key = 5 ".toList⟩] [.vstr "x".toList]
      "key = 5 # comment".toList = .ok [.vstr []] ∧
    process_line [⟨.MICRO_CONF_STR, "key = 5 ".toList⟩] [.vstr "x".toList]
      "key = 5".toList = .ok [.vstr "x".toList] ∧
    process_line [⟨.MICRO_CONF_STR, "key = 5 ".toList⟩] [.vstr "x".toList]
        "key = 5 # comment".toList ≠
      process_line [⟨.MICRO_CONF_STR, "key = 5 ".toList⟩] [.vstr "x".toList]
        "key = 5".toList :=
  ⟨by decide, by decide, by decide⟩

/-- Witness for C7: with the ordinary binding (Int, "key") the commented
line parses identically to the bare one (both write 5), and a
comment-only line is skipped. -/
theorem comment_discarded_witness :
    process_line [⟨.MICRO_CONF_INT, "key".toList⟩] [.vint 7]
        ("key = 5 ".toList ++ '#' :: " comment".toList) =
      process_line [⟨.MICRO_CONF_INT, "key".toList⟩] [.vint 7]
        "key = 5 ".toList ∧
    process_line [⟨.MICRO_CONF_INT, "key".toList⟩] [.vint 7]
        "key = 5 # comment".toList =
      process_line [⟨.MICRO_CONF_INT, "key".toList⟩] [.vint 7]
        "key = 5".toList ∧
    process_line [⟨.MICRO_CONF_INT, "key".toList⟩] [.vint 7]
      "key = 5 # comment".toList = .ok [.vint 5] ∧
    process_line [⟨.MICRO_CONF_INT, "key".toList⟩] [.vint 7]
      "   # full-line comment\n".toList = .ok [.vint 7] :=
  ⟨comment_discarded.1 _ _ _ _,
   comment_discarded.2.1 _ _ (by decide),
   by decide,
   comment_discarded.2.2 _ _ _ (by decide)⟩
